import Mathlib

/-!
Verification of the FuckAmazon wishlist scraper (`src/fuck_amazon.ts`).

The script's own logic — URL cleanup, CSV encoding, item extraction and
retention, scroll-completion detection, the DuckDuckGo link-resolution
fallback, and the per-URL pipeline control flow — is embedded shallowly
below.  JavaScript strings are modelled as lists of bytes (`List Nat`,
each element intended `< 256`, UTF-8); DOM access, navigation and the
clock are modelled as explicit inputs (oracles, observation traces,
per-URL worlds).  Definitions are translated from the TypeScript source;
theorems state the specified properties about them.

The `URL` / `URLSearchParams` built-ins used at source lines 301–305 are
embedded as `parseUrl` / `serializeUrl` over a structured `UrlModel`:
scheme, host, path and fragment are kept verbatim, the query is a list of
percent-decoded name/value byte pairs (form-urlencoded, as
`URLSearchParams` exposes it).  The parser covers absolute `http(s)` URLs
and root-relative references resolved against the script's fixed base
`https://www.amazon.com`; other inputs parse to `none`, matching the
partial domain the claims quantify over.
-/

namespace FuckAmazon

/-- Byte list for an ASCII string; convenience for concrete inputs
(agrees with UTF-8 on the ASCII fragment used here). -/
def bytesOf (s : String) : List Nat :=
  s.data.map Char.toNat

/-- Whitespace test for `String.prototype.trim` at the byte level
(space, tab, LF, CR, VT, FF — the ASCII whitespace JS trims). -/
def isWsByte (b : Nat) : Bool :=
  b = 32 || b = 9 || b = 10 || b = 13 || b = 11 || b = 12

/-- Model of `s.trim()`: drop leading and trailing whitespace bytes. -/
def trimB (s : List Nat) : List Nat :=
  ((s.dropWhile isWsByte).reverse.dropWhile isWsByte).reverse

/-- Byte-list test for `s.startsWith(p)`. -/
def startsWithB : List Nat → List Nat → Bool
  | [], _ => true
  | _ :: _, [] => false
  | p :: ps, b :: bs => p = b && startsWithB ps bs

/-- Model of `inputUrl.split(",")`: split a byte string on commas (byte 44),
keeping empty pieces, as `String.prototype.split` does. -/
def splitOnComma : List Nat → List (List Nat)
  | [] => [[]]
  | b :: rest =>
    if b = 44 then [] :: splitOnComma rest
    else
      match splitOnComma rest with
      | [] => [[b]]
      | p :: ps => (b :: p) :: ps

/-! ## CSV field encoder (`escapeCSV`, source lines 91–97) -/

/-- Translation of `field.replace(/"/g, '""')`: double every double-quote
byte (34). -/
def doubleQuotesB : List Nat → List Nat
  | [] => []
  | b :: rest =>
    if b = 34 then 34 :: 34 :: doubleQuotesB rest
    else b :: doubleQuotesB rest

/-- Translation of the guard `field.includes('"') || field.includes(",") ||
field.includes("\n")`. -/
def needsEscape (f : List Nat) : Bool :=
  f.contains 34 || f.contains 44 || f.contains 10

/-- Translation of `escapeCSV` from the source: quote and double internal
quotes when the field contains a quote, comma or newline; otherwise return
the field unchanged. -/
def escapeCSV (f : List Nat) : List Nat :=
  if needsEscape f then 34 :: doubleQuotesB f ++ [34]
  else f

/-- Specification-side description of quote doubling: each byte maps to
itself, except a double quote maps to two double quotes. -/
def dupQuoteSpec (f : List Nat) : List Nat :=
  (f.map (fun b => if b = 34 then [34, 34] else [b])).flatten

/-! ## Form-urlencoded codec (the query half of the `URL` built-in)

`URLSearchParams` stores decoded name/value pairs and serializes them in
canonical `application/x-www-form-urlencoded` form: space becomes `+`,
alphanumerics and `*-._` stay literal, every other byte becomes `%XX`. -/

/-- Hex-digit test on a byte (0-9, A-F, a-f). -/
def isHexDigit (b : Nat) : Bool :=
  (48 ≤ b && b ≤ 57) || (65 ≤ b && b ≤ 70) || (97 ≤ b && b ≤ 102)

/-- Numeric value of a hex-digit byte. -/
def hexVal (b : Nat) : Nat :=
  if b ≤ 57 then b - 48 else if b ≤ 70 then b - 55 else b - 87

/-- Upper-case hex digit byte for a nibble. -/
def hexDigitByte (n : Nat) : Nat :=
  if n < 10 then 48 + n else 55 + n

/-- Bytes serialized literally by form-urlencoding: `0-9 A-Z a-z * - . _`. -/
def isFormSafe (b : Nat) : Bool :=
  (48 ≤ b && b ≤ 57) || (65 ≤ b && b ≤ 90) || (97 ≤ b && b ≤ 122) ||
    b = 42 || b = 45 || b = 46 || b = 95

/-- Form-urlencoding of one byte. -/
def encodeByte (b : Nat) : List Nat :=
  if b = 32 then [43]
  else if isFormSafe b then [b]
  else [37, hexDigitByte (b / 16 % 16), hexDigitByte (b % 16)]

/-- Form-urlencoding of a byte string. -/
def encodeBytes (s : List Nat) : List Nat :=
  (s.map encodeByte).flatten

/-- Form-urldecoding of a byte string: `+` is space, `%XX` with two hex
digits is the byte `XX`, anything else is literal (the forgiving decoder
`URLSearchParams` applies to query components). -/
def decodeBytes : List Nat → List Nat
  | [] => []
  | 43 :: rest => 32 :: decodeBytes rest
  | 37 :: h1 :: h2 :: rest2 =>
    if isHexDigit h1 && isHexDigit h2 then
      (hexVal h1 * 16 + hexVal h2) :: decodeBytes rest2
    else 37 :: decodeBytes (h1 :: h2 :: rest2)
  | b :: rest => b :: decodeBytes rest

/-- Split a query string on `&` (byte 38), keeping empty pieces. -/
def splitOnAmp : List Nat → List (List Nat)
  | [] => [[]]
  | b :: rest =>
    if b = 38 then [] :: splitOnAmp rest
    else
      match splitOnAmp rest with
      | [] => [[b]]
      | p :: ps => (b :: p) :: ps

/-- Split a `name=value` piece at the first `=` (byte 61); a piece without
`=` is all name, empty value. -/
def splitEq : List Nat → List Nat × List Nat
  | [] => ([], [])
  | b :: rest =>
    if b = 61 then ([], rest)
    else
      let nv := splitEq rest
      (b :: nv.1, nv.2)

/-- Query-string parsing as `URLSearchParams` does it: split on `&`, drop
empty pieces, split each piece at its first `=`, percent-decode both
halves. -/
def parseQuery (qs : List Nat) : List (List Nat × List Nat) :=
  ((splitOnAmp qs).filter (fun p => p ≠ [])).map
    (fun p => (decodeBytes (splitEq p).1, decodeBytes (splitEq p).2))

/-- Join pieces with `&` (byte 38). -/
def joinAmp : List (List Nat) → List Nat
  | [] => []
  | [p] => p
  | p :: ps => p ++ 38 :: joinAmp ps

/-- Canonical serialization of a pair list, as `URLSearchParams.toString`. -/
def serializeQuery (ps : List (List Nat × List Nat)) : List Nat :=
  joinAmp (ps.map (fun p => encodeBytes p.1 ++ 61 :: encodeBytes p.2))

/-! ## URL model (`new URL(href, "https://www.amazon.com")`) -/

/-- Structured view of a parsed absolute URL. -/
structure UrlModel where
  scheme : List Nat
  host : List Nat
  path : List Nat
  query : List (List Nat × List Nat)
  fragment : Option (List Nat)
  deriving DecidableEq

/-- Take bytes until one of `delims` is hit; returns the taken part and the
rest (delimiter still in place). -/
def takeUntil (delims : List Nat) : List Nat → List Nat × List Nat
  | [] => ([], [])
  | b :: s =>
    if delims.contains b then ([], b :: s)
    else
      let pr := takeUntil delims s
      (b :: pr.1, pr.2)

/-- Remove an expected leading byte sequence; `none` if it is not there. -/
def dropStart : List Nat → List Nat → Option (List Nat)
  | [], s => some s
  | _ :: _, [] => none
  | p :: ps, b :: bs => if p = b then dropStart ps bs else none

def httpsB : List Nat := bytesOf "https"
def httpB : List Nat := bytesOf "http"
def httpsMark : List Nat := bytesOf "https://"
def httpMark : List Nat := bytesOf "http://"
def amazonHost : List Nat := bytesOf "www.amazon.com"

/-- Split the part after the authority into path, parsed query and
fragment.  An empty path serializes (and reparses) as `/`, as WHATWG does
for special schemes. -/
def parsePQF (s : List Nat) : List Nat × List (List Nat × List Nat) × Option (List Nat) :=
  let pr := takeUntil [63, 35] s
  let path := if pr.1 = [] then [47] else pr.1
  match pr.2 with
  | [] => (path, [], none)
  | d :: rest =>
    if d = 63 then
      let qf := takeUntil [35] rest
      match qf.2 with
      | [] => (path, parseQuery qf.1, none)
      | _ :: frag => (path, parseQuery qf.1, some frag)
    else (path, [], some rest)

/-- Parse the remainder of an absolute URL after its `scheme://` mark. -/
def parseAbs (scheme rest : List Nat) : Option UrlModel :=
  let ar := takeUntil [47, 63, 35] rest
  if ar.1 = [] then none
  else
    let pqf := parsePQF ar.2
    some ⟨scheme, ar.1, pqf.1, pqf.2.1, pqf.2.2⟩

/-- Model of `new URL(href, "https://www.amazon.com")` on the input shapes
the scraper meets: absolute `http(s)` URLs and root-relative references;
anything else is out of the modelled domain (`none`). -/
def parseUrl (s : List Nat) : Option UrlModel :=
  match dropStart httpsMark s with
  | some rest => parseAbs httpsB rest
  | none =>
    match dropStart httpMark s with
    | some rest => parseAbs httpB rest
    | none =>
      match s with
      | [] => none
      | b :: _ =>
        if b = 47 then
          let pqf := parsePQF s
          some ⟨httpsB, amazonHost, pqf.1, pqf.2.1, pqf.2.2⟩
        else none

/-- Model of `URL.prototype.toString` over the structured view. -/
def serializeUrl (u : UrlModel) : List Nat :=
  u.scheme ++ bytesOf "://" ++ u.host ++ u.path ++
    (if u.query = [] then [] else 63 :: serializeQuery u.query) ++
    (match u.fragment with
     | some f => 35 :: f
     | none => [])

/-! ## URL normalizer (source lines 301–305) -/

def pscB : List Nat := bytesOf "psc"
def refB : List Nat := bytesOf "ref_"
def thB : List Nat := bytesOf "th"
def oneB : List Nat := bytesOf "1"

/-- Model of `searchParams.delete(name)`: remove every pair so named. -/
def deleteParam (name : List Nat) (ps : List (List Nat × List Nat)) :
    List (List Nat × List Nat) :=
  ps.filter (fun p => p.1 ≠ name)

/-- Model of `searchParams.set(name, val)`: overwrite the first pair so
named in place and drop the rest, or append if absent. -/
def setParam (name val : List Nat) : List (List Nat × List Nat) → List (List Nat × List Nat)
  | [] => [(name, val)]
  | p :: ps =>
    if p.1 = name then (name, val) :: deleteParam name ps
    else p :: setParam name val ps

/-- The three query edits of source lines 302–304. -/
def normalizeQuery (q : List (List Nat × List Nat)) : List (List Nat × List Nat) :=
  setParam thB oneB (deleteParam refB (deleteParam pscB q))

/-- The URL Normalizer on the structured view. -/
def normalizeUrl (u : UrlModel) : UrlModel :=
  { u with query := normalizeQuery u.query }

/-- The URL Normalizer end to end: `new URL(href, base)`, the three query
edits, `toString()`.  `none` models the caught parse failure. -/
def normalizeHref (s : List Nat) : Option (List Nat) :=
  (parseUrl s).map (fun u => serializeUrl (normalizeUrl u))

/-- Canonical shape of every URL the parser produces: a known scheme, a
non-empty host free of the authority delimiters, and a slash-led path
free of the query and fragment delimiters. -/
def goodUrl (u : UrlModel) : Prop :=
  (u.scheme = httpsB ∨ u.scheme = httpB) ∧
  u.host ≠ [] ∧
  (∀ b ∈ u.host, b ≠ 47 ∧ b ≠ 63 ∧ b ≠ 35) ∧
  (∃ p, u.path = 47 :: p) ∧
  (∀ b ∈ u.path, b ≠ 63 ∧ b ≠ 35)

/-- Concrete href for witnesses: the spec's end-to-end example link. -/
def c3href : List Nat := bytesOf "/dp/B000X?psc=1&ref_=abc&th=2"

/-- The parse of `c3href` in the model. -/
def c3url : UrlModel :=
  ⟨bytesOf "https", bytesOf "www.amazon.com", bytesOf "/dp/B000X",
    [(bytesOf "psc", bytesOf "1"), (bytesOf "ref_", bytesOf "abc"),
      (bytesOf "th", bytesOf "2")], none⟩

/-! ## Wishlist items and the Item Extractor (source lines 266–330) -/

/-- One extracted wishlist entry, fields as in the source interface. -/
structure WishlistItem where
  itemName : List Nat
  manufacturer : List Nat
  options : List (List Nat)
  productLink : List Nat
  nonAmazonLink : List Nat
  deriving DecidableEq

/-- What the extractor reads from one `div[id*="itemInfo_"]` DOM node:
whether the `NON_ASIN` marker is present, the `span[id*="itemName_"]`
inner text, the `a[id*="itemName_"]` inner text with its `href`
attribute, the byline inner text, and the `span#twisterText` inner
texts, all raw (untrimmed). -/
structure ItemNode where
  nonAsin : Bool
  spanItemName : Option (List Nat)
  anchorItemName : Option (List Nat × Option (List Nat))
  byline : Option (List Nat)
  twister : List (List Nat)
  deriving DecidableEq

/-- Lower-case an ASCII letter byte. -/
def lowerByte (b : Nat) : Nat :=
  if 65 ≤ b && b ≤ 90 then b + 32 else b

/-- Translation of the test `/^https?:\/\/[^\s]+$/i`: case-insensitive
`http://` or `https://`, then at least one byte, none of it whitespace. -/
def urlTest (s : List Nat) : Bool :=
  let l := s.map lowerByte
  match dropStart httpsMark l with
  | some rest => rest ≠ [] && rest.all (fun b => !isWsByte b)
  | none =>
    match dropStart httpMark l with
    | some rest => rest ≠ [] && rest.all (fun b => !isWsByte b)
    | none => false

/-- Item with every field empty, the loop-local initial state. -/
def blankItem : WishlistItem := ⟨[], [], [], [], []⟩

/-- Translation of the per-node extraction loop body: the `NON_ASIN`
variant keeps the span text as `nonAmazonLink` when it looks like a URL
and as `itemName` otherwise; the standard variant takes the anchor text
as name, its normalized href as `productLink` (empty on parse failure),
the trimmed byline as manufacturer, and the trimmed non-empty twister
texts as options. -/
def extractItem (node : ItemNode) : WishlistItem :=
  if node.nonAsin then
    match node.spanItemName with
    | some t0 =>
      let text := trimB t0
      if urlTest text then { blankItem with nonAmazonLink := text }
      else { blankItem with itemName := text }
    | none => blankItem
  else
    let nmpl : List Nat × List Nat :=
      match node.anchorItemName with
      | some tp =>
        (trimB tp.1,
          match tp.2 with
          | some href =>
            (match normalizeHref href with
             | some link => link
             | none => [])
          | none => [])
      | none => ([], [])
    let mfr :=
      match node.byline with
      | some b => trimB b
      | none => []
    let opts := (node.twister.map trimB).filter (fun o => o ≠ [])
    ⟨nmpl.1, mfr, opts, nmpl.2, []⟩

/-- The retention guard `if (itemName || productLink || nonAmazonLink)`
of source line 326 (JS truthiness of strings: non-empty). -/
def retainTest (it : WishlistItem) : Bool :=
  it.itemName ≠ [] || it.productLink ≠ [] || it.nonAmazonLink ≠ []

/-- The extraction pass over all item nodes: extract each, keep those
passing the retention guard, in order. -/
def extractAll (nodes : List ItemNode) : List WishlistItem :=
  (nodes.map extractItem).filter retainTest

/-! ## Scroll-Completion Detector (source lines 222–259) -/

/-- The fixed scroll-attempt budget (`maxScrolls`). -/
def maxScrolls : Nat := 30

/-- The scrolling loop of lines 226–240 over a visibility trace `t`
(`t k` = whether the end-of-list sentinel is visible at the check of the
iteration with `scrollCount = k`): scroll, wait, check; stop reporting
`true` when the sentinel is seen, or report `false` when the budget is
exhausted.  `fuel` stands for `maxScrolls - count`. -/
def scrollAux (t : Nat → Bool) : Nat → Nat → Nat × Bool
  | count, 0 => (count, false)
  | count, fuel + 1 => if t count then (count, true) else scrollAux t (count + 1) fuel

/-- The scroll phase: final `scrollCount` and `endOfListVisible`. -/
def scrollPhase (t : Nat → Bool) : Nat × Bool :=
  scrollAux t 0 maxScrolls

/-- One observation of the sentinel in the stabilizing loop: found and
visible, found but not visible, or not found (`page.$` returned null). -/
inductive SentinelObs where
  | vis
  | invis
  | absent
  deriving DecidableEq

/-- The continuous-visibility threshold in milliseconds. -/
def stabThreshold : Nat := 10000

/-- One iteration of the stabilizing loop of lines 246–259 on the state
`(continuousVisibleTime, lastCheck)`, fed an observation `(now, status)`:
when the element is found and visible the elapsed `now - lastCheck` is
accumulated; found but invisible resets the accumulator; when `page.$`
finds nothing the whole block — including the `lastCheck` update — is
skipped. -/
def stabStep (st : Nat × Nat) (o : Nat × SentinelObs) : Nat × Nat :=
  match o.2 with
  | .vis => (st.1 + (o.1 - st.2), o.1)
  | .invis => (0, o.1)
  | .absent => st

/-- The stabilizing loop driven by a finite observation trace: it checks
`continuousVisibleTime < 10000` before each iteration and stops (flag
"complete") once the threshold is reached. -/
def stabRun (st : Nat × Nat) : List (Nat × SentinelObs) → Nat × Nat
  | [] => st
  | o :: os => if stabThreshold ≤ st.1 then st else stabRun (stabStep st o) os

/-- A trace whose middle observation is an absence gap: sentinel visible
at t=1000, element not found at t=2000, visible again at t=11000. -/
def gapTrace : List (Nat × SentinelObs) :=
  [(1000, SentinelObs.vis), (2000, SentinelObs.absent), (11000, SentinelObs.vis)]

/-! ## Link Resolution Fallback (source lines 334–361) -/

/-- Translation of `href.match(/uddg=([^&]+)/)`: scan for the first
position where `uddg=` is followed by at least one non-`&` byte; the
capture is the maximal non-`&` run there. -/
def findUddg : List Nat → Option (List Nat)
  | [] => none
  | b :: rest =>
    if startsWithB (bytesOf "uddg=") (b :: rest) then
      let cap := ((b :: rest).drop 5).takeWhile (fun c => c ≠ 38)
      if cap = [] then findUddg rest else some cap
    else findUddg rest

/-- Model of `decodeURIComponent`: strict percent-decoding, `none` on a
`%` not followed by two hex digits (the thrown `URIError`, which the
surrounding `try` absorbs).  Byte-level; UTF-8 re-validation of the
decoded bytes is not modelled. -/
def pctDecode : List Nat → Option (List Nat)
  | [] => some []
  | 37 :: h1 :: h2 :: rest =>
    if isHexDigit h1 && isHexDigit h2 then
      (pctDecode rest).map (fun d => (hexVal h1 * 16 + hexVal h2) :: d)
    else none
  | 37 :: _ => none
  | b :: rest => (pctDecode rest).map (fun d => b :: d)

/-- Handling of a found organic-result href (lines 346–356): a
redirect-wrapped `uddg` target is decoded and stored, otherwise the href
itself is stored; a decoding failure is caught and leaves the item
untouched. -/
def duckProcess (it : WishlistItem) (href : List Nat) : WishlistItem :=
  match findUddg href with
  | some cap =>
    match pctDecode cap with
    | some dec => { it with nonAmazonLink := dec }
    | none => it
  | none => { it with nonAmazonLink := href }

/-- The per-item Link Resolution Fallback: skip items that already carry
a non-Amazon link; otherwise consult the search oracle (`none` models no
organic result in time, or a null `href` attribute; an empty href is
falsy and ignored). -/
def resolveFallback (search : WishlistItem → Option (List Nat))
    (it : WishlistItem) : WishlistItem :=
  if it.nonAmazonLink = [] then
    match search it with
    | some href => if href = [] then it else duckProcess it href
    | none => it
  else it

/-- The fallback pass over the whole batch (the `for (const item of
items)` loop). -/
def resolveAll (search : WishlistItem → Option (List Nat))
    (items : List WishlistItem) : List WishlistItem :=
  items.map (resolveFallback search)

/-! ## CSV document assembly (source lines 363–386) -/

/-- Widest option list across the batch (`items.reduce(..., 0)`). -/
def maxOptions (items : List WishlistItem) : Nat :=
  items.foldl (fun m it => max m it.options.length) 0

/-- Decimal digit bytes of `n`, most significant first; `fuel` bounds the
recursion and `n + 1` always suffices. -/
def decDigits (fuel n : Nat) : List Nat :=
  match fuel with
  | 0 => []
  | f + 1 => if n < 10 then [48 + n] else decDigits f (n / 10) ++ [48 + n % 10]

/-- Decimal rendering of a natural, as JS string interpolation does. -/
def natDigits (n : Nat) : List Nat :=
  decDigits (n + 1) n

/-- The dynamic header label `Option ${i}`. -/
def optionLabel (i : Nat) : List Nat :=
  bytesOf "Option " ++ natDigits i

/-- The four fixed header columns. -/
def baseColumns : List (List Nat) :=
  [bytesOf "Item Name", bytesOf "Manufacturer", bytesOf "Product Link",
    bytesOf "Non-Amazon Link"]

/-- Header columns for a batch whose widest option list has `n` entries:
the four scalars then `Option 1 … Option n` (the `for` loop of lines
368–370). -/
def headerColumns (n : Nat) : List (List Nat) :=
  baseColumns ++ (List.range n).map (fun i => optionLabel (i + 1))

/-- One data row's fields (lines 376–384): the four escaped scalars, then
`maxOptions` escaped option slots, padding out-of-range (or falsy)
options with the empty string. -/
def itemRow (n : Nat) (it : WishlistItem) : List (List Nat) :=
  [escapeCSV it.itemName, escapeCSV it.manufacturer, escapeCSV it.productLink,
    escapeCSV it.nonAmazonLink] ++
    (List.range n).map (fun i => escapeCSV (it.options.getD i []))

/-- Two-item batch for the C6 witness: widest option list has 2 entries,
second item has none. -/
def c6items : List WishlistItem :=
  [⟨bytesOf "Desk Lamp", [], [bytesOf "Black", bytesOf "US Plug"], [], []⟩,
    ⟨bytesOf "Mug", [], [], [], []⟩]

/-- The optionless item of `c6items`. -/
def c6mug : WishlistItem := ⟨bytesOf "Mug", [], [], [], []⟩

/-! ## Wishlist Pipeline (source lines 154–393) -/

/-- Translation of `wishlistName.replace(/[^a-zA-Z0-9]/g, "_")`. -/
def sanitizeName (s : List Nat) : List Nat :=
  s.map (fun b =>
    if (48 ≤ b && b ≤ 57) || (65 ≤ b && b ≤ 90) || (97 ≤ b && b ≤ 122) then b
    else 95)

/-- What one wishlist URL's page offers the pipeline: the CAPTCHA
detection/recovery observations (challenge prompt seen within the
timeout, challenge container found, input field found, challenge marker
still present after submission) and the `span#profile-list-name` inner
text if that element exists. -/
structure UrlWorld where
  captchaDetected : Bool
  captchaContainerFound : Bool
  captchaInputFound : Bool
  captchaStillPresent : Bool
  listNameElem : Option (List Nat)
  deriving DecidableEq

/-- Outcome of processing one wishlist URL: the process exited, or a CSV
file with the given base name was written. -/
inductive StepResult where
  | exited (code : Nat)
  | wroteCsv (name : List Nat)
  deriving DecidableEq

/-- The list name after the lookup of lines 202–209: sanitized trimmed
element text, or the default `wishlist` when the element is missing. -/
def resolvedName (w : UrlWorld) : List Nat :=
  match w.listNameElem with
  | some t => sanitizeName (trimB t)
  | none => bytesOf "wishlist"

/-- One iteration of the per-URL loop, reduced to its exit/output
behaviour: `process.exit(1)` at line 189 when the CAPTCHA marker
survives submission (only reachable when prompt, container and input
were all found), `process.exit(1)` at line 216 when the resolved name is
still the default, otherwise the CSV named after the list is written. -/
def processUrl (w : UrlWorld) : StepResult :=
  if w.captchaDetected && w.captchaContainerFound && w.captchaInputFound
      && w.captchaStillPresent then
    StepResult.exited 1
  else if resolvedName w = bytesOf "wishlist" then StepResult.exited 1
  else StepResult.wroteCsv (resolvedName w)

/-- Observable result of a whole run: CSV files written in order, the
exit code if `process.exit` was called, and how many wishlist URLs were
navigated. -/
structure RunResult where
  csvs : List (List Nat)
  exitCode : Option Nat
  processed : Nat
  deriving DecidableEq

/-- The `for (const wishlistUrl of wishlistUrls)` loop: `process.exit`
terminates the whole process, so an exit during the first URL leaves
every later URL unprocessed. -/
def runUrls : List UrlWorld → RunResult
  | [] => ⟨[], none, 0⟩
  | w :: ws =>
    match processUrl w with
    | .exited c => ⟨[], some c, 1⟩
    | .wroteCsv n =>
      let r := runUrls ws
      ⟨n :: r.csvs, r.exitCode, r.processed + 1⟩

/-- The accepted wishlist-URL lead-in of line 144. -/
def wishMark : List Nat := bytesOf "https://www.amazon.com/hz/wishlist/ls/"

/-- Translation of lines 143–145: empty-after-trim input yields no URLs;
otherwise split the raw input on commas, trim each piece, and keep those
that start with the wishlist lead-in. -/
def parseWishlistUrls (input : List Nat) : List (List Nat) :=
  if trimB input = [] then []
  else ((splitOnComma input).map trimB).filter (fun u => startsWithB wishMark u)

/-- The whole `main` after the prompt: exit 1 before navigating anywhere
when no URL survives the filter, else run the per-URL loop (eachURL's
page modelled by the corresponding world). -/
def runMain (input : List Nat) (worlds : List UrlWorld) : RunResult :=
  let urls := parseWishlistUrls input
  if urls = [] then ⟨[], some 1, 0⟩
  else runUrls (worlds.take urls.length)

/-- A URL world whose CAPTCHA recovery fails. -/
def c1fail : UrlWorld := ⟨true, true, true, true, some (bytesOf "My List")⟩

/-- A URL world that succeeds with list name `My List`. -/
def c1ok : UrlWorld := ⟨false, false, false, false, some (bytesOf "My List")⟩

/-- Concrete prompt input for the C10 witness. -/
def c10input : List Nat :=
  bytesOf " https://www.amazon.com/hz/wishlist/ls/ABC , http://evil.example "

/-! # Theorems -/

/-! ## C5 — CSV field escaping -/

theorem doubleQuotesB_eq_spec (f : List Nat) : doubleQuotesB f = dupQuoteSpec f := by
  induction f with
  | nil => rfl
  | cons b rest ih =>
    by_cases hb : b = 34 <;>
      simp [doubleQuotesB, dupQuoteSpec, hb, List.map_cons] at ih ⊢ <;>
      simpa [dupQuoteSpec] using ih

/-- C5: a CSV field is wrapped in double quotes with every internal double
quote doubled exactly when it contains a double quote (byte 34), a comma
(44) or a newline (10); any other field is emitted verbatim. -/
theorem escapeCSV_spec (f : List Nat) :
    ((34 ∈ f ∨ 44 ∈ f ∨ 10 ∈ f) →
      escapeCSV f = 34 :: dupQuoteSpec f ++ [34]) ∧
    (¬(34 ∈ f ∨ 44 ∈ f ∨ 10 ∈ f) → escapeCSV f = f) := by
  have key : needsEscape f = true ↔ (34 ∈ f ∨ 44 ∈ f ∨ 10 ∈ f) := by
    simp only [needsEscape, List.contains, List.elem_iff, Bool.or_eq_true]
    tauto
  constructor
  · intro h
    simp [escapeCSV, key.mpr h, doubleQuotesB_eq_spec]
  · intro h
    have hn : needsEscape f = false := by
      cases hcase : needsEscape f
      · rfl
      · exact absurd (key.mp hcase) h
    simp [escapeCSV, hn]

/-- Witness for C5 at the spec's own example `"Mug, Blue"`. -/
theorem escapeCSV_spec_witness :
    escapeCSV (bytesOf "Mug, Blue") = 34 :: dupQuoteSpec (bytesOf "Mug, Blue") ++ [34] :=
  (escapeCSV_spec (bytesOf "Mug, Blue")).1 (Or.inr (Or.inl (by decide)))

/-! ## C3 — normalizer output parameters -/

theorem deleteParam_cons_hit {m : List Nat} {p : List Nat × List Nat}
    (h : p.1 = m) (ps : List (List Nat × List Nat)) :
    deleteParam m (p :: ps) = deleteParam m ps := by
  simp [deleteParam, List.filter_cons, h]

theorem deleteParam_cons_miss {m : List Nat} {p : List Nat × List Nat}
    (h : ¬ p.1 = m) (ps : List (List Nat × List Nat)) :
    deleteParam m (p :: ps) = p :: deleteParam m ps := by
  simp [deleteParam, List.filter_cons, h]

theorem filter_cons_hit {m : List Nat} {p : List Nat × List Nat}
    (h : p.1 = m) (ps : List (List Nat × List Nat)) :
    (p :: ps).filter (fun q => q.1 = m) = p :: ps.filter (fun q => q.1 = m) := by
  simp [List.filter_cons, h]

theorem filter_cons_miss {m : List Nat} {p : List Nat × List Nat}
    (h : ¬ p.1 = m) (ps : List (List Nat × List Nat)) :
    (p :: ps).filter (fun q => q.1 = m) = ps.filter (fun q => q.1 = m) := by
  simp [List.filter_cons, h]

theorem filter_deleteParam_self (n : List Nat) (ps : List (List Nat × List Nat)) :
    (deleteParam n ps).filter (fun p => p.1 = n) = [] := by
  induction ps with
  | nil => rfl
  | cons p ps ih =>
    by_cases h : p.1 = n
    · rw [deleteParam_cons_hit h]; exact ih
    · rw [deleteParam_cons_miss h, filter_cons_miss h]; exact ih

theorem filter_deleteParam_other {n m : List Nat} (hne : n ≠ m)
    (ps : List (List Nat × List Nat)) :
    (deleteParam m ps).filter (fun p => p.1 = n) = ps.filter (fun p => p.1 = n) := by
  induction ps with
  | nil => rfl
  | cons p ps ih =>
    by_cases h : p.1 = m
    · have hpn : ¬ p.1 = n := fun hc => hne ((hc ▸ h : n = m))
      rw [deleteParam_cons_hit h, filter_cons_miss hpn]; exact ih
    · by_cases h2 : p.1 = n
      · rw [deleteParam_cons_miss h, filter_cons_hit h2, filter_cons_hit h2, ih]
      · rw [deleteParam_cons_miss h, filter_cons_miss h2, filter_cons_miss h2, ih]

theorem filter_setParam_self (n v : List Nat) (ps : List (List Nat × List Nat)) :
    (setParam n v ps).filter (fun p => p.1 = n) = [(n, v)] := by
  induction ps with
  | nil => simp [setParam, List.filter_cons]
  | cons p ps ih =>
    by_cases h : p.1 = n
    · rw [setParam, if_pos h, filter_cons_hit (show ((n, v) : List Nat × List Nat).1 = n from rfl),
        filter_deleteParam_self]
    · rw [setParam, if_neg h, filter_cons_miss h]; exact ih

theorem filter_setParam_other {n m : List Nat} (hne : n ≠ m) (v : List Nat)
    (ps : List (List Nat × List Nat)) :
    (setParam m v ps).filter (fun p => p.1 = n) = ps.filter (fun p => p.1 = n) := by
  have hmn : ¬ ((m, v) : List Nat × List Nat).1 = n := fun hc => hne hc.symm
  induction ps with
  | nil => rw [setParam, filter_cons_miss hmn]
  | cons p ps ih =>
    by_cases h : p.1 = m
    · have hpn : ¬ p.1 = n := fun hc => hne ((hc ▸ h : n = m))
      rw [setParam, if_pos h, filter_cons_miss hmn, filter_deleteParam_other hne,
        filter_cons_miss hpn]
    · rw [setParam, if_neg h]
      by_cases h2 : p.1 = n
      · rw [filter_cons_hit h2, filter_cons_hit h2, ih]
      · rw [filter_cons_miss h2, filter_cons_miss h2, ih]

/-- C3: whenever the normalizer resolves a hyperlink, its output query
carries no `psc` parameter, no `ref_` parameter, and exactly one `th`
parameter, whose value is `1`. -/
theorem normalizeUrl_params (s : List Nat) (u : UrlModel)
    (h : parseUrl s = some u) :
    (normalizeUrl u).query.filter (fun p => p.1 = pscB) = [] ∧
    (normalizeUrl u).query.filter (fun p => p.1 = refB) = [] ∧
    (normalizeUrl u).query.filter (fun p => p.1 = thB) = [(thB, oneB)] := by
  refine ⟨?_, ?_, ?_⟩
  · rw [show (normalizeUrl u).query = normalizeQuery u.query from rfl, normalizeQuery,
      filter_setParam_other (by decide), filter_deleteParam_other (by decide),
      filter_deleteParam_self]
  · rw [show (normalizeUrl u).query = normalizeQuery u.query from rfl, normalizeQuery,
      filter_setParam_other (by decide), filter_deleteParam_self]
  · rw [show (normalizeUrl u).query = normalizeQuery u.query from rfl, normalizeQuery,
      filter_setParam_self]

/-- Witness for C3 at the spec's example href. -/
theorem normalizeUrl_params_witness :
    (normalizeUrl c3url).query.filter (fun p => p.1 = pscB) = [] ∧
    (normalizeUrl c3url).query.filter (fun p => p.1 = refB) = [] ∧
    (normalizeUrl c3url).query.filter (fun p => p.1 = thB) = [(thB, oneB)] :=
  normalizeUrl_params c3href c3url (by decide)

/-! ## C2 — retention invariant of the Item Extractor -/

/-- C2: no batch of extracted candidates ever contains an item whose
`itemName`, `productLink` and `nonAmazonLink` are all empty; every
retained item has at least one of the three non-empty. -/
theorem extractAll_retention (nodes : List ItemNode) (it : WishlistItem)
    (h : it ∈ extractAll nodes) :
    ¬(it.itemName = [] ∧ it.productLink = [] ∧ it.nonAmazonLink = []) ∧
    (it.itemName ≠ [] ∨ it.productLink ≠ [] ∨ it.nonAmazonLink ≠ []) := by
  have hr : retainTest it = true := List.of_mem_filter h
  have hd : it.itemName ≠ [] ∨ it.productLink ≠ [] ∨ it.nonAmazonLink ≠ [] := by
    simp only [retainTest, Bool.or_eq_true, decide_eq_true_eq] at hr
    tauto
  exact ⟨fun hc => by rcases hd with h1 | h1 | h1 <;> exact h1 (by tauto), hd⟩

/-- A one-node batch for the C2 witness: a standard item whose anchor
text is `Lamp` and which has no href. -/
def c2nodes : List ItemNode :=
  [⟨false, none, some (bytesOf "Lamp", none), none, []⟩]

/-- The item the C2 witness batch extracts. -/
def c2item : WishlistItem := ⟨bytesOf "Lamp", [], [], [], []⟩

/-- Witness for C2 on a concrete extracted batch. -/
theorem extractAll_retention_witness :
    ¬(c2item.itemName = [] ∧ c2item.productLink = [] ∧ c2item.nonAmazonLink = []) ∧
    (c2item.itemName ≠ [] ∨ c2item.productLink ≠ [] ∨ c2item.nonAmazonLink ≠ []) :=
  extractAll_retention c2nodes c2item (by decide)

/-! ## C7 — scroll phase against simulated sentinels -/

/-- C7: with a sentinel first visible at the fifth check and visible from
then on, the scroll phase stops with the complete flag at `scrollCount`
4, within the 30-attempt budget; with a sentinel that is never visible it
stops with the incomplete flag at exactly `scrollCount = maxScrolls`. -/
theorem scrollPhase_sentinel (t₅ tNever : Nat → Bool)
    (h₅ : ∀ k, t₅ k = decide (4 ≤ k)) (hN : ∀ k, tNever k = false) :
    (scrollPhase t₅ = (4, true) ∧ 4 < maxScrolls) ∧
    scrollPhase tNever = (30, false) := by
  refine ⟨⟨?_, by decide⟩, ?_⟩
  · simp [scrollPhase, maxScrolls, scrollAux, h₅]
  · simp [scrollPhase, maxScrolls, scrollAux, hN]

/-- Witness for C7 at the two concrete traces. -/
theorem scrollPhase_sentinel_witness :
    (scrollPhase (fun k => decide (4 ≤ k)) = (4, true) ∧ 4 < maxScrolls) ∧
    scrollPhase (fun _ => false) = (30, false) :=
  scrollPhase_sentinel (fun k => decide (4 ≤ k)) (fun _ => false)
    (fun _ => rfl) (fun _ => rfl)

/-! ## C8 — the stabilizing phase accumulates across absence gaps

The claim says the accumulator is reset on every visibility gap and that
only observed-visible time is accumulated.  In the code, an observation
where `page.$` finds no element skips the whole block, leaving
`lastCheck` stale; the next visible observation then credits the entire
span — absence included — to the accumulator.  On `gapTrace` the loop
reaches the 10-second threshold (flag "complete") even though the
sentinel was absent at t=2000 after only 1000 ms of observed
visibility. -/

/-- C8 (code evaluated at the failing input): the run over `gapTrace`
ends with `continuousVisibleTime = 11000 ≥ 10000`, i.e. Done(complete),
and the absent observation left the state — accumulator and reference
timestamp — unchanged instead of resetting. -/
theorem stabRun_gap_completes :
    stabRun (0, 0) gapTrace = (11000, 11000) ∧
    stabStep (1000, 1000) (2000, SentinelObs.absent) = (1000, 1000) ∧
    stabThreshold ≤ (stabRun (0, 0) gapTrace).1 := by
  refine ⟨by decide, rfl, by decide⟩

/-! ## C9 — frame property of the Link Resolution Fallback -/

theorem duckProcess_frame (it : WishlistItem) (href : List Nat) :
    (duckProcess it href).itemName = it.itemName ∧
    (duckProcess it href).manufacturer = it.manufacturer ∧
    (duckProcess it href).options = it.options ∧
    (duckProcess it href).productLink = it.productLink := by
  cases hu : findUddg href with
  | none => simp [duckProcess, hu]
  | some cap =>
    cases hd : pctDecode cap with
    | none => simp [duckProcess, hu, hd]
    | some dec => simp [duckProcess, hu, hd]

/-- C9: the fallback never touches `itemName`, `manufacturer`, `options`
or `productLink`; an item whose `nonAmazonLink` is already non-empty is
returned unchanged; and any change at all implies the item's
`nonAmazonLink` was previously empty (the only mutation is filling it). -/
theorem resolveFallback_frame (search : WishlistItem → Option (List Nat))
    (it : WishlistItem) :
    ((resolveFallback search it).itemName = it.itemName ∧
     (resolveFallback search it).manufacturer = it.manufacturer ∧
     (resolveFallback search it).options = it.options ∧
     (resolveFallback search it).productLink = it.productLink) ∧
    (it.nonAmazonLink ≠ [] → resolveFallback search it = it) ∧
    (resolveFallback search it ≠ it → it.nonAmazonLink = []) := by
  by_cases h : it.nonAmazonLink = []
  · have frame : (resolveFallback search it).itemName = it.itemName ∧
        (resolveFallback search it).manufacturer = it.manufacturer ∧
        (resolveFallback search it).options = it.options ∧
        (resolveFallback search it).productLink = it.productLink := by
      cases hs : search it with
      | none => simp [resolveFallback, h, hs]
      | some href =>
        by_cases hh : href = []
        · simp [resolveFallback, h, hs, hh]
        · simpa [resolveFallback, h, hs, hh] using duckProcess_frame it href
    exact ⟨frame, fun hne => absurd h hne, fun _ => h⟩
  · have eq : resolveFallback search it = it := by
      simp [resolveFallback, h]
    exact ⟨by rw [eq]; exact ⟨rfl, rfl, rfl, rfl⟩, fun _ => eq, fun hne => absurd eq hne⟩

/-- Item with a pre-existing non-Amazon link, for the C9 witness. -/
def c9item : WishlistItem :=
  ⟨bytesOf "Desk Lamp", bytesOf "Maker", [bytesOf "Black"], [],
    bytesOf "https://maker.example/lamp"⟩

/-- A search oracle that would offer a redirect-wrapped href. -/
def c9search (it : WishlistItem) : Option (List Nat) :=
  if it.itemName = [] then none
  else some (bytesOf "https://duckduckgo.com/l/?uddg=https%3A%2F%2Fother.example%2F&rut=x")

/-- Witness for C9: the item with a non-empty `nonAmazonLink` passes
through the fallback unchanged. -/
theorem resolveFallback_frame_witness :
    resolveFallback c9search c9item = c9item :=
  (resolveFallback_frame c9search c9item).2.1 (by decide)

/-! ## C6 — CSV header and row shape -/

theorem decDigits_range (fuel : Nat) : ∀ n b, b ∈ decDigits fuel n → 48 ≤ b ∧ b ≤ 57 := by
  induction fuel with
  | zero => intro n b hb; simp [decDigits] at hb
  | succ f ih =>
    intro n b hb
    by_cases h : n < 10
    · simp [decDigits, h] at hb; omega
    · simp [decDigits, h] at hb
      rcases hb with hb | hb
      · exact ih _ _ hb
      · omega

theorem needsEscape_eq_false {f : List Nat}
    (h : ¬(34 ∈ f ∨ 44 ∈ f ∨ 10 ∈ f)) : needsEscape f = false := by
  cases hc : needsEscape f
  · rfl
  · exfalso
    apply h
    simp only [needsEscape, List.contains, List.elem_iff, Bool.or_eq_true] at hc
    tauto

theorem escapeCSV_of_safe {f : List Nat} (h : needsEscape f = false) :
    escapeCSV f = f := by
  simp [escapeCSV, h]

theorem optionLabel_no_special (i : Nat) : needsEscape (optionLabel i) = false := by
  apply needsEscape_eq_false
  have aux : ∀ c : Nat, c ∈ optionLabel i → c ∈ bytesOf "Option " ∨ (48 ≤ c ∧ c ≤ 57) := by
    intro c hc
    rcases List.mem_append.1 hc with hc | hc
    · exact Or.inl hc
    · exact Or.inr (decDigits_range _ _ _ hc)
  rintro (h | h | h)
  · rcases aux 34 h with h2 | h2
    · exact absurd h2 (by decide)
    · omega
  · rcases aux 44 h with h2 | h2
    · exact absurd h2 (by decide)
    · omega
  · rcases aux 10 h with h2 | h2
    · exact absurd h2 (by decide)
    · omega

theorem headerColumns_length (n : Nat) : (headerColumns n).length = 4 + n := by
  simp [headerColumns, baseColumns]
  omega

theorem headerColumns_getD (n k : Nat) (hk : k < n) :
    (headerColumns n).getD (4 + k) [] = optionLabel (k + 1) := by
  have hlen : baseColumns.length = 4 := rfl
  rw [headerColumns, List.getD_eq_getElem?_getD,
    List.getElem?_append_right (by rw [hlen]; omega), hlen]
  have h4 : 4 + k - 4 = k := by omega
  rw [h4, List.getElem?_map, List.getElem?_range hk]
  rfl

theorem itemRow_length (n : Nat) (it : WishlistItem) :
    (itemRow n it).length = 4 + n := by
  simp [itemRow]
  omega

theorem itemRow_pad (n k : Nat) (it : WishlistItem) (hk : k < n)
    (hlen : it.options.length ≤ k) :
    (itemRow n it).getD (4 + k) [] = [] := by
  have hcomm : 4 + k = k + 4 := by omega
  rw [hcomm]
  simp only [itemRow, List.cons_append, List.nil_append, List.getD_cons_succ]
  rw [List.getD_eq_getElem?_getD, List.getElem?_map, List.getElem?_range hk]
  have hd : it.options.getD k [] = [] := List.getD_eq_default _ _ hlen
  rw [List.getD_eq_getElem?_getD] at hd
  simp [hd, escapeCSV, needsEscape]

/-- C6: for any batch, with `N = maxOptions`, the emitted header fields
are exactly the four scalar columns followed by `Option 1 … Option N`
(escaping leaves all of them untouched), giving `4 + N` fields, and
every data row has exactly `4 + N` fields with options missing from an
item padded by the empty field. -/
theorem csv_shape (items : List WishlistItem) :
    (headerColumns (maxOptions items)).map escapeCSV = headerColumns (maxOptions items) ∧
    (headerColumns (maxOptions items)).length = 4 + maxOptions items ∧
    (headerColumns (maxOptions items)).take 4 = baseColumns ∧
    (∀ k, k < maxOptions items →
      (headerColumns (maxOptions items)).getD (4 + k) [] = optionLabel (k + 1)) ∧
    ∀ it ∈ items,
      (itemRow (maxOptions items) it).length = 4 + maxOptions items ∧
      ∀ k, k < maxOptions items → it.options.length ≤ k →
        (itemRow (maxOptions items) it).getD (4 + k) [] = [] := by
  refine ⟨?_, headerColumns_length _, ?_, fun k hk => headerColumns_getD _ k hk,
    fun it _ => ⟨itemRow_length _ it, fun k hk hl => itemRow_pad _ k it hk hl⟩⟩
  · have hbase : baseColumns.map escapeCSV = baseColumns := by decide
    have hopts :
        ((List.range (maxOptions items)).map (fun i => optionLabel (i + 1))).map escapeCSV
          = (List.range (maxOptions items)).map (fun i => optionLabel (i + 1)) := by
      rw [List.map_map]
      apply List.map_congr_left
      intro i _
      exact escapeCSV_of_safe (optionLabel_no_special (i + 1))
    rw [headerColumns, List.map_append, hbase, hopts]
  · rw [headerColumns]
    exact List.take_left' rfl

/-- Witness for C6 on the concrete two-item batch: header option column
2 is labelled `Option 2`, and the optionless item's row pads slot 2 with
the empty field. -/
theorem csv_shape_witness :
    (headerColumns (maxOptions c6items)).getD 5 [] = optionLabel 2 ∧
    (itemRow (maxOptions c6items) c6mug).getD 5 [] = [] ∧
    (itemRow (maxOptions c6items) c6mug).length = 4 + maxOptions c6items :=
  ⟨(csv_shape c6items).2.2.2.1 1 (by decide),
    (((csv_shape c6items).2.2.2.2 c6mug (by decide)).2 1 (by decide) (by decide)),
    ((csv_shape c6items).2.2.2.2 c6mug (by decide)).1⟩

/-! ## C10 — prompt-input URL filtering -/

theorem startsWithB_iff (p s : List Nat) :
    startsWithB p s = true ↔ ∃ t, s = p ++ t := by
  induction p generalizing s with
  | nil => simpa [startsWithB] using ⟨s, rfl⟩
  | cons c cs ih =>
    cases s with
    | nil => simp [startsWithB]
    | cons b bs =>
      simp only [startsWithB, Bool.and_eq_true, decide_eq_true_eq, ih, List.cons_append]
      constructor
      · rintro ⟨rfl, t, rfl⟩
        exact ⟨t, rfl⟩
      · rintro ⟨t, ht⟩
        rcases List.cons_eq_cons.1 ht with ⟨rfl, rfl⟩
        exact ⟨rfl, t, rfl⟩

theorem mem_of_mem_trimB {b : Nat} {s : List Nat} (h : b ∈ trimB s) : b ∈ s := by
  unfold trimB at h
  have h1 := List.mem_reverse.1 h
  have h2 : b ∈ (s.dropWhile isWsByte).reverse :=
    (List.dropWhile_sublist _).mem h1
  have h3 : b ∈ s.dropWhile isWsByte := List.mem_reverse.1 h2
  exact (List.dropWhile_sublist _).mem h3

theorem trimB_eq_nil_ws {s : List Nat} (h : trimB s = []) :
    ∀ b ∈ s, isWsByte b = true := by
  unfold trimB at h
  have h1 : (s.dropWhile isWsByte).reverse.dropWhile isWsByte = [] :=
    List.reverse_eq_nil_iff.1 h
  have h2 : ∀ b ∈ (s.dropWhile isWsByte).reverse, isWsByte b :=
    List.dropWhile_eq_nil_iff.1 h1
  have h3 : ∀ b ∈ s.dropWhile isWsByte, isWsByte b :=
    fun b hb => h2 b (List.mem_reverse.2 hb)
  intro b hb
  rcases List.mem_append.1
      ((List.takeWhile_append_dropWhile isWsByte s) ▸ hb) with hb2 | hb2
  · exact List.mem_takeWhile_imp hb2
  · exact h3 b hb2

theorem splitOnComma_ne_nil (s : List Nat) : splitOnComma s ≠ [] := by
  cases s with
  | nil => simp [splitOnComma]
  | cons b rest =>
    by_cases hb : b = 44
    · simp [splitOnComma, hb]
    · simp only [splitOnComma, if_neg hb]
      cases hsp : splitOnComma rest <;> simp

theorem mem_splitOnComma_subset (s : List Nat) :
    ∀ p ∈ splitOnComma s, ∀ b ∈ p, b ∈ s := by
  induction s with
  | nil =>
    intro p hp b hb
    simp [splitOnComma] at hp
    subst hp
    simp at hb
  | cons c rest ih =>
    intro p hp b hb
    by_cases hc : c = 44
    · simp only [splitOnComma, if_pos hc] at hp
      rcases List.mem_cons.1 hp with rfl | hp
      · simp at hb
      · exact List.mem_cons_of_mem _ (ih p hp b hb)
    · simp only [splitOnComma, if_neg hc] at hp
      cases hsp : splitOnComma rest with
      | nil => exact absurd hsp (splitOnComma_ne_nil rest)
      | cons q qs =>
        rw [hsp] at hp
        rcases List.mem_cons.1 hp with rfl | hp
        · rcases List.mem_cons.1 hb with rfl | hb
          · exact List.mem_cons_self _ _
          · have hq : q ∈ splitOnComma rest := hsp ▸ List.mem_cons_self _ _
            exact List.mem_cons_of_mem _ (ih q hq b hb)
        · have hpq : p ∈ splitOnComma rest := hsp ▸ List.mem_cons_of_mem _ hp
          exact List.mem_cons_of_mem _ (ih p hpq b hb)

/-- C10: a URL is kept exactly when it is the trim of one comma-piece of
the raw input and extends the literal wishlist lead-in; and when nothing
survives the filter (in particular for empty or all-whitespace input),
the run exits with code 1 having navigated to no URL and written no
CSV. -/
theorem parseWishlistUrls_spec (input : List Nat) :
    (∀ u, u ∈ parseWishlistUrls input ↔
        ((∃ p ∈ splitOnComma input, trimB p = u) ∧ ∃ t, u = wishMark ++ t)) ∧
    (parseWishlistUrls input = [] →
      ∀ worlds, runMain input worlds = ⟨[], some 1, 0⟩) := by
  constructor
  · intro u
    by_cases hempty : trimB input = []
    · simp only [parseWishlistUrls, if_pos hempty]
      constructor
      · intro h
        exact absurd h (List.not_mem_nil u)
      · rintro ⟨⟨p, hp, hpu⟩, t, ht⟩
        exfalso
        have h104 : (104 : Nat) ∈ u := by
          rw [ht]
          exact List.mem_append.2 (Or.inl (by decide))
        have hin : (104 : Nat) ∈ input :=
          mem_splitOnComma_subset input p hp 104 (mem_of_mem_trimB (hpu ▸ h104))
        have := trimB_eq_nil_ws hempty 104 hin
        simp [isWsByte] at this
    · simp only [parseWishlistUrls, if_neg hempty]
      rw [List.mem_filter]
      constructor
      · rintro ⟨hmem, hpred⟩
        exact ⟨List.mem_map.1 hmem, (startsWithB_iff wishMark u).1 hpred⟩
      · rintro ⟨⟨p, hp, hpu⟩, hex⟩
        exact ⟨List.mem_map.2 ⟨p, hp, hpu⟩, (startsWithB_iff wishMark u).2 hex⟩
  · intro h worlds
    simp [runMain, h]

/-- Witness for C10: the first comma-piece of the concrete prompt input
survives the filter, and all-whitespace input exits 1 with nothing
processed. -/
theorem parseWishlistUrls_spec_witness :
    bytesOf "https://www.amazon.com/hz/wishlist/ls/ABC" ∈ parseWishlistUrls c10input ∧
    runMain (bytesOf "   ") [] = ⟨[], some 1, 0⟩ :=
  ⟨((parseWishlistUrls_spec c10input).1 _).mpr
      ⟨⟨bytesOf " https://www.amazon.com/hz/wishlist/ls/ABC ", by decide, by decide⟩,
        ⟨bytesOf "ABC", by decide⟩⟩,
    (parseWishlistUrls_spec (bytesOf "   ")).2 (by decide) []⟩

/-! ## C1 — fate of a wishlist URL whose CAPTCHA recovery or list name
fails

The claim's first half holds: no CSV is produced for that URL.  Its
second half does not: the code calls `process.exit(1)` (lines 189 and
216), so the whole process stops and later URLs in the batch are never
navigated. -/

/-- C1 counterexample: with the CAPTCHA-failing world first, the run
stops after one URL with exit code 1 and writes nothing, although the
second world on its own would produce the CSV `My_List` — the pipeline
does not proceed to the next wishlist URL. -/
theorem runUrls_no_continue_after_failure :
    runUrls [c1fail, c1ok] = ⟨[], some 1, 1⟩ ∧
    runUrls [c1ok] = ⟨[bytesOf "My_List"], none, 1⟩ := by
  exact ⟨by decide, by decide⟩

/-- C1 (amended): if the CAPTCHA marker is still present after
submission, or the resolved list name is still the default, that URL's
processing halts without a CSV and the whole process exits with code 1 —
the remaining URLs in the batch are left unprocessed. -/
theorem runUrls_fatal_url (w : UrlWorld) (ws : List UrlWorld)
    (h : (w.captchaDetected = true ∧ w.captchaContainerFound = true ∧
          w.captchaInputFound = true ∧ w.captchaStillPresent = true) ∨
         resolvedName w = bytesOf "wishlist") :
    runUrls (w :: ws) = ⟨[], some 1, 1⟩ := by
  have hp : processUrl w = StepResult.exited 1 := by
    rcases h with ⟨h1, h2, h3, h4⟩ | h
    · simp [processUrl, h1, h2, h3, h4]
    · by_cases hc : (w.captchaDetected && w.captchaContainerFound &&
          w.captchaInputFound && w.captchaStillPresent) = true
      · simp [processUrl, hc]
      · rw [Bool.not_eq_true] at hc
        simp [processUrl, hc, h]
  simp [runUrls, hp]

/-- Witness for the amended C1 on the concrete failing world. -/
theorem runUrls_fatal_url_witness :
    runUrls (c1fail :: [c1ok]) = ⟨[], some 1, 1⟩ :=
  runUrls_fatal_url c1fail [c1ok] (Or.inl ⟨rfl, rfl, rfl, rfl⟩)

/-! ## C4 — idempotence of the URL Normalizer -/

theorem decodeBytes_cons_plain {b : Nat} (h43 : b ≠ 43) (h37 : b ≠ 37) (s : List Nat) :
    decodeBytes (b :: s) = b :: decodeBytes s := by
  rw [decodeBytes.eq_def]
  split
  · simp_all
  · simp_all
  · simp_all
  · rename_i heq
    injection heq with hb hs2
    subst hb
    subst hs2
    rfl

theorem hexVal_hexDigitByte {n : Nat} (h : n < 16) : hexVal (hexDigitByte n) = n := by
  unfold hexVal hexDigitByte
  by_cases h10 : n < 10
  · rw [if_pos h10, if_pos (by omega)]
    omega
  · rw [if_neg h10, if_neg (by omega), if_pos (by omega)]
    omega

theorem isHexDigit_hexDigitByte {n : Nat} (h : n < 16) : isHexDigit (hexDigitByte n) = true := by
  unfold isHexDigit hexDigitByte
  by_cases h10 : n < 10
  · rw [if_pos h10]
    simp only [Bool.or_eq_true, Bool.and_eq_true, decide_eq_true_eq]
    omega
  · rw [if_neg h10]
    simp only [Bool.or_eq_true, Bool.and_eq_true, decide_eq_true_eq]
    omega

theorem decode_encodeByte {b : Nat} (hb : b < 256) (s : List Nat) :
    decodeBytes (encodeByte b ++ s) = b :: decodeBytes s := by
  unfold encodeByte
  by_cases h32 : b = 32
  · subst h32
    simp only [if_pos rfl, List.cons_append, List.nil_append]
    rfl
  · rw [if_neg h32]
    by_cases hsafe : isFormSafe b = true
    · rw [if_pos hsafe]
      have h43 : b ≠ 43 := by
        intro hc; subst hc; simp [isFormSafe] at hsafe
      have h37 : b ≠ 37 := by
        intro hc; subst hc; simp [isFormSafe] at hsafe
      simpa using decodeBytes_cons_plain h43 h37 s
    · rw [if_neg hsafe]
      have hd1 : b / 16 % 16 < 16 := by omega
      have hd2 : b % 16 < 16 := by omega
      show decodeBytes (37 :: hexDigitByte (b / 16 % 16) :: hexDigitByte (b % 16) :: s)
        = b :: decodeBytes s
      rw [decodeBytes]
      rw [if_pos (by rw [isHexDigit_hexDigitByte hd1, isHexDigit_hexDigitByte hd2]; rfl)]
      rw [hexVal_hexDigitByte hd1, hexVal_hexDigitByte hd2]
      congr 1
      omega

theorem decode_encode {s : List Nat} (h : ∀ b ∈ s, b < 256) :
    decodeBytes (encodeBytes s) = s := by
  induction s with
  | nil => rfl
  | cons b rest ih =>
    have hb : b < 256 := h b (List.mem_cons_self _ _)
    have hrest : ∀ c ∈ rest, c < 256 := fun c hc => h c (List.mem_cons_of_mem _ hc)
    show decodeBytes (encodeByte b ++ encodeBytes rest) = b :: rest
    rw [decode_encodeByte hb, ih hrest]

theorem splitOnAmp_ne_nil (s : List Nat) : splitOnAmp s ≠ [] := by
  cases s with
  | nil => simp [splitOnAmp]
  | cons b rest =>
    by_cases hb : b = 38
    · simp [splitOnAmp, hb]
    · simp only [splitOnAmp, if_neg hb]
      cases hsp : splitOnAmp rest <;> simp

theorem splitOnAmp_no_amp {p : List Nat} (hp : (38 : Nat) ∉ p) :
    splitOnAmp p = [p] := by
  induction p with
  | nil => rfl
  | cons c q ih =>
    have hc : c ≠ 38 := fun h => hp (h ▸ List.mem_cons_self _ _)
    have hq : (38 : Nat) ∉ q := fun h => hp (List.mem_cons_of_mem _ h)
    simp only [splitOnAmp, if_neg hc, ih hq]

theorem splitOnAmp_append {p : List Nat} (hp : (38 : Nat) ∉ p) (r : List Nat) :
    splitOnAmp (p ++ 38 :: r) = p :: splitOnAmp r := by
  induction p with
  | nil => simp [splitOnAmp]
  | cons c q ih =>
    have hc : c ≠ 38 := fun h => hp (h ▸ List.mem_cons_self _ _)
    have hq : (38 : Nat) ∉ q := fun h => hp (List.mem_cons_of_mem _ h)
    rw [List.cons_append]
    rw [show splitOnAmp (c :: (q ++ 38 :: r)) =
        match splitOnAmp (q ++ 38 :: r) with
        | [] => [[c]]
        | p :: ps => (c :: p) :: ps from by simp [splitOnAmp, hc]]
    rw [ih hq]

theorem splitOnAmp_joinAmp {pieces : List (List Nat)} (hne : pieces ≠ [])
    (hp : ∀ q ∈ pieces, (38 : Nat) ∉ q) :
    splitOnAmp (joinAmp pieces) = pieces := by
  induction pieces with
  | nil => exact absurd rfl hne
  | cons p ps ih =>
    cases ps with
    | nil => exact splitOnAmp_no_amp (hp p (List.mem_cons_self _ _))
    | cons q qs =>
      have hjoin : joinAmp (p :: q :: qs) = p ++ 38 :: joinAmp (q :: qs) := rfl
      rw [hjoin, splitOnAmp_append (hp p (List.mem_cons_self _ _))]
      rw [ih (List.cons_ne_nil _ _) (fun r hr => hp r (List.mem_cons_of_mem _ hr))]

theorem splitEq_append {a : List Nat} (ha : (61 : Nat) ∉ a) (b : List Nat) :
    splitEq (a ++ 61 :: b) = (a, b) := by
  induction a with
  | nil => simp [splitEq]
  | cons c q ih =>
    have hc : c ≠ 61 := fun h => ha (h ▸ List.mem_cons_self _ _)
    have hq : (61 : Nat) ∉ q := fun h => ha (List.mem_cons_of_mem _ h)
    rw [List.cons_append]
    rw [show splitEq (c :: (q ++ 61 :: b)) =
        (c :: (splitEq (q ++ 61 :: b)).1, (splitEq (q ++ 61 :: b)).2) from by
      simp [splitEq, hc]]
    rw [ih hq]

theorem hexDigitByte_range (n : Nat) (h : n < 16) :
    (48 ≤ hexDigitByte n ∧ hexDigitByte n ≤ 57) ∨
      (65 ≤ hexDigitByte n ∧ hexDigitByte n ≤ 70) := by
  unfold hexDigitByte
  split <;> omega

theorem encodeByte_mem {b c : Nat} (hc : c ∈ encodeByte b) :
    c ≠ 38 ∧ c ≠ 61 ∧ c ≠ 35 := by
  unfold encodeByte at hc
  by_cases h32 : b = 32
  · rw [if_pos h32] at hc
    simp at hc
    omega
  · rw [if_neg h32] at hc
    by_cases hsafe : isFormSafe b = true
    · rw [if_pos hsafe] at hc
      simp at hc
      subst hc
      simp only [isFormSafe, Bool.or_eq_true, Bool.and_eq_true, decide_eq_true_eq] at hsafe
      omega
    · rw [if_neg hsafe] at hc
      have r1 := hexDigitByte_range (b / 16 % 16) (by omega)
      have r2 := hexDigitByte_range (b % 16) (by omega)
      simp at hc
      rcases hc with rfl | rfl | rfl <;> omega

theorem encodeBytes_mem {s : List Nat} {c : Nat} (hc : c ∈ encodeBytes s) :
    c ≠ 38 ∧ c ≠ 61 ∧ c ≠ 35 := by
  unfold encodeBytes at hc
  rcases List.mem_flatten.1 hc with ⟨l, hl, hcl⟩
  rcases List.mem_map.1 hl with ⟨b, _, rfl⟩
  exact encodeByte_mem hcl

theorem parseQuery_serializeQuery {ps : List (List Nat × List Nat)}
    (h : ∀ pr ∈ ps, (∀ b ∈ pr.1, b < 256) ∧ (∀ b ∈ pr.2, b < 256)) :
    parseQuery (serializeQuery ps) = ps := by
  cases ps with
  | nil => rfl
  | cons pr0 rest =>
    unfold serializeQuery parseQuery
    set pieces := ((pr0 :: rest).map (fun p => encodeBytes p.1 ++ 61 :: encodeBytes p.2)) with hpieces
    have hnoamp : ∀ q ∈ pieces, (38 : Nat) ∉ q := by
      intro q hq
      rcases List.mem_map.1 hq with ⟨pr, _, rfl⟩
      intro hmem
      rcases List.mem_append.1 hmem with hmem | hmem
      · exact (encodeBytes_mem hmem).1 rfl
      · rcases List.mem_cons.1 hmem with h61 | hmem
        · exact absurd h61.symm (by decide)
        · exact (encodeBytes_mem hmem).1 rfl
    have hne : pieces ≠ [] := by simp [hpieces]
    rw [splitOnAmp_joinAmp hne hnoamp]
    have hfull : pieces.filter (fun p => p ≠ []) = pieces := by
      apply List.filter_eq_self.mpr
      intro q hq
      rcases List.mem_map.1 hq with ⟨pr, _, rfl⟩
      simp
    rw [hfull, hpieces, List.map_map]
    have : ∀ pr ∈ pr0 :: rest,
        ((fun p => (decodeBytes (splitEq p).1, decodeBytes (splitEq p).2)) ∘
          fun p => encodeBytes p.1 ++ 61 :: encodeBytes p.2) pr = id pr := by
      intro pr hpr
      have hno61 : (61 : Nat) ∉ encodeBytes pr.1 := fun hm => (encodeBytes_mem hm).2.1 rfl
      simp only [Function.comp_apply, id_eq]
      rw [splitEq_append hno61]
      rw [decode_encode (h pr hpr).1, decode_encode (h pr hpr).2]
    rw [List.map_congr_left this, List.map_id]

theorem takeUntil_no_delim {ds : List Nat} (a : List Nat)
    (ha : ∀ c ∈ a, c ∉ ds) (b : List Nat)
    (hb : b = [] ∨ ∃ hd tl, b = hd :: tl ∧ hd ∈ ds) :
    takeUntil ds (a ++ b) = (a, b) := by
  induction a with
  | nil =>
    rcases hb with rfl | ⟨hd, tl, rfl, hhd⟩
    · rfl
    · simp [takeUntil, hhd]
  | cons c q ih =>
    have hc : c ∉ ds := ha c (List.mem_cons_self _ _)
    have hq : ∀ x ∈ q, x ∉ ds := fun x hx => ha x (List.mem_cons_of_mem _ hx)
    rw [List.cons_append]
    rw [show takeUntil ds (c :: (q ++ b)) =
        (c :: (takeUntil ds (q ++ b)).1, (takeUntil ds (q ++ b)).2) from by
      simp [takeUntil, hc]]
    rw [ih hq]

theorem takeUntil_fst_no_delim (ds : List Nat) :
    ∀ s, ∀ c ∈ (takeUntil ds s).1, c ∉ ds := by
  intro s
  induction s with
  | nil => intro c hc; simp [takeUntil] at hc
  | cons b rest ih =>
    intro c hc
    by_cases hb : b ∈ ds
    · simp [takeUntil, hb] at hc
    · rw [show takeUntil ds (b :: rest) =
          (b :: (takeUntil ds rest).1, (takeUntil ds rest).2) from by
        simp [takeUntil, hb]] at hc
      rcases List.mem_cons.1 hc with rfl | hc
      · exact hb
      · exact ih c hc

theorem takeUntil_append_eq (ds : List Nat) :
    ∀ s, (takeUntil ds s).1 ++ (takeUntil ds s).2 = s := by
  intro s
  induction s with
  | nil => rfl
  | cons b rest ih =>
    by_cases hb : b ∈ ds
    · simp [takeUntil, hb]
    · rw [show takeUntil ds (b :: rest) =
          (b :: (takeUntil ds rest).1, (takeUntil ds rest).2) from by
        simp [takeUntil, hb]]
      simpa using ih

theorem takeUntil_snd_shape (ds : List Nat) :
    ∀ s, (takeUntil ds s).2 = [] ∨
      ∃ hd tl, (takeUntil ds s).2 = hd :: tl ∧ hd ∈ ds := by
  intro s
  induction s with
  | nil => exact Or.inl rfl
  | cons b rest ih =>
    by_cases hb : b ∈ ds
    · exact Or.inr ⟨b, rest, by simp [takeUntil, hb], hb⟩
    · rw [show takeUntil ds (b :: rest) =
          (b :: (takeUntil ds rest).1, (takeUntil ds rest).2) from by
        simp [takeUntil, hb]]
      exact ih

theorem dropStart_append (p : List Nat) : ∀ s, dropStart p (p ++ s) = some s := by
  induction p with
  | nil => intro s; rfl
  | cons c q ih => intro s; simp [dropStart, ih]

theorem dropStart_eq_append {p s r : List Nat} (h : dropStart p s = some r) :
    s = p ++ r := by
  induction p generalizing s with
  | nil =>
    simp [dropStart] at h
    simp [h]
  | cons c q ih =>
    cases s with
    | nil => simp [dropStart] at h
    | cons b bs =>
      by_cases hc : c = b
      · subst hc
        rw [show dropStart (c :: q) (c :: bs) = dropStart q bs from by
          simp [dropStart]] at h
        rw [List.cons_append, ih h]
      · rw [show dropStart (c :: q) (b :: bs) = none from by simp [dropStart, hc]] at h
        exact absurd h (by simp)

theorem mem_joinAmp {c : Nat} : ∀ {l : List (List Nat)}, c ∈ joinAmp l →
    c = 38 ∨ ∃ p ∈ l, c ∈ p := by
  intro l
  induction l with
  | nil => intro h; simp [joinAmp] at h
  | cons p ps ih =>
    intro h
    cases ps with
    | nil => exact Or.inr ⟨p, List.mem_cons_self _ _, h⟩
    | cons q qs =>
      rw [show joinAmp (p :: q :: qs) = p ++ 38 :: joinAmp (q :: qs) from rfl] at h
      rcases List.mem_append.1 h with h | h
      · exact Or.inr ⟨p, List.mem_cons_self _ _, h⟩
      · rcases List.mem_cons.1 h with rfl | h
        · exact Or.inl rfl
        · rcases ih h with h | ⟨r, hr, hcr⟩
          · exact Or.inl h
          · exact Or.inr ⟨r, List.mem_cons_of_mem _ hr, hcr⟩

theorem serializeQuery_no35 {q : List (List Nat × List Nat)} :
    ∀ c ∈ serializeQuery q, c ≠ 35 := by
  intro c hc
  rcases mem_joinAmp hc with rfl | ⟨p, hp, hcp⟩
  · decide
  · rcases List.mem_map.1 hp with ⟨pr, _, rfl⟩
    rcases List.mem_append.1 hcp with h | h
    · exact (encodeBytes_mem h).2.2
    · rcases List.mem_cons.1 h with rfl | h
      · decide
      · exact (encodeBytes_mem h).2.2

theorem parsePQF_roundtrip (path : List Nat) (q : List (List Nat × List Nat))
    (frag : Option (List Nat))
    (hpath1 : ∃ p, path = 47 :: p)
    (hpath2 : ∀ b ∈ path, b ≠ 63 ∧ b ≠ 35)
    (hqb : ∀ pr ∈ q, (∀ b ∈ pr.1, b < 256) ∧ (∀ b ∈ pr.2, b < 256)) :
    parsePQF (path ++ 63 :: (serializeQuery q ++
      (match frag with | some f => 35 :: f | none => []))) = (path, q, frag) := by
  have hpne : path ≠ [] := by
    rcases hpath1 with ⟨p, rfl⟩
    simp
  have hpathd : ∀ c ∈ path, c ∉ ([63, 35] : List Nat) := by
    intro c hcp hmem
    have h2 := hpath2 c hcp
    simp only [List.mem_cons, List.not_mem_nil, or_false] at hmem
    rcases hmem with rfl | rfl
    · exact h2.1 rfl
    · exact h2.2 rfl
  have hq35 : ∀ c ∈ serializeQuery q, c ∉ ([35] : List Nat) := by
    intro c hc hmem
    simp only [List.mem_cons, List.not_mem_nil, or_false] at hmem
    exact serializeQuery_no35 c hc hmem
  cases frag with
  | none =>
    have htu : takeUntil [63, 35] (path ++ 63 :: serializeQuery q) =
        (path, 63 :: serializeQuery q) := by
      have h := takeUntil_no_delim path hpathd (63 :: serializeQuery q)
        (Or.inr ⟨63, _, rfl, by simp⟩)
      exact h
    have htq : takeUntil [35] (serializeQuery q) = (serializeQuery q, []) := by
      have h := takeUntil_no_delim (serializeQuery q) hq35 [] (Or.inl rfl)
      rwa [List.append_nil] at h
    have key : parsePQF (path ++ 63 :: serializeQuery q) = (path, q, none) := by
      simp [parsePQF, htu, htq, hpne, parseQuery_serializeQuery hqb]
    simpa using key
  | some f =>
    have htu : takeUntil [63, 35] (path ++ 63 :: (serializeQuery q ++ 35 :: f)) =
        (path, 63 :: (serializeQuery q ++ 35 :: f)) :=
      takeUntil_no_delim path hpathd _ (Or.inr ⟨63, _, rfl, by simp⟩)
    have htq : takeUntil [35] (serializeQuery q ++ 35 :: f) = (serializeQuery q, 35 :: f) :=
      takeUntil_no_delim _ hq35 _ (Or.inr ⟨35, f, rfl, by simp⟩)
    have key : parsePQF (path ++ 63 :: (serializeQuery q ++ 35 :: f)) = (path, q, some f) := by
      simp [parsePQF, htu, htq, hpne, parseQuery_serializeQuery hqb]
    simpa using key

theorem parse_serialize (u : UrlModel) (hg : goodUrl u) (hq : u.query ≠ [])
    (hbd : ∀ pr ∈ u.query, (∀ b ∈ pr.1, b < 256) ∧ (∀ b ∈ pr.2, b < 256)) :
    parseUrl (serializeUrl u) = some u := by
  obtain ⟨scheme, host, path, q, frag⟩ := u
  obtain ⟨hscheme, hhost, hhostd, hpath1, hpath2⟩ := hg
  simp only at hscheme hhost hhostd hpath1 hpath2 hq hbd
  have hser : serializeUrl ⟨scheme, host, path, q, frag⟩ =
      (scheme ++ bytesOf "://") ++ (host ++ (path ++ 63 :: (serializeQuery q ++
        (match frag with | some f => 35 :: f | none => [])))) := by
    simp only [serializeUrl, if_neg hq]
    simp [List.append_assoc]
  have hhostd2 : ∀ c ∈ host, c ∉ ([47, 63, 35] : List Nat) := by
    intro c hcm hmem
    have h2 := hhostd c hcm
    simp only [List.mem_cons, List.not_mem_nil, or_false] at hmem
    rcases hmem with rfl | rfl | rfl
    · exact h2.1 rfl
    · exact h2.2.1 rfl
    · exact h2.2.2 rfl
  have hrest : ∀ (sch : List Nat), parseAbs sch (host ++ (path ++ 63 :: (serializeQuery q ++
      (match frag with | some f => 35 :: f | none => [])))) =
      some ⟨sch, host, path, q, frag⟩ := by
    intro sch
    have htu : takeUntil [47, 63, 35] (host ++ (path ++ 63 :: (serializeQuery q ++
        (match frag with | some f => 35 :: f | none => [])))) =
        (host, path ++ 63 :: (serializeQuery q ++
          (match frag with | some f => 35 :: f | none => []))) := by
      apply takeUntil_no_delim host hhostd2
      rcases hpath1 with ⟨p, rfl⟩
      exact Or.inr ⟨47, _, rfl, by simp⟩
    have hpqf := parsePQF_roundtrip path q frag hpath1 hpath2 hbd
    simp only [parseAbs, htu, if_neg hhost, hpqf]
  rcases hscheme with rfl | rfl
  · have hmark : httpsB ++ bytesOf "://" = httpsMark := by decide
    rw [hser, hmark]
    show parseUrl (httpsMark ++ _) = _
    simp only [parseUrl, dropStart_append]
    exact hrest httpsB
  · have hmark : httpB ++ bytesOf "://" = httpMark := by decide
    rw [hser, hmark]
    have hnone : dropStart httpsMark (httpMark ++ (host ++ (path ++ 63 :: (serializeQuery q ++
        (match frag with | some f => 35 :: f | none => []))))) = none := rfl
    simp only [parseUrl, hnone, dropStart_append]
    exact hrest httpB

theorem hexVal_lt {b : Nat} (h : isHexDigit b = true) : hexVal b < 16 := by
  simp only [isHexDigit, Bool.or_eq_true, Bool.and_eq_true, decide_eq_true_eq] at h
  unfold hexVal
  by_cases h57 : b ≤ 57
  · rw [if_pos h57]
    omega
  · rw [if_neg h57]
    by_cases h70 : b ≤ 70
    · rw [if_pos h70]
      omega
    · rw [if_neg h70]
      omega

theorem decodeBytes_bound (l : List Nat) (hl : ∀ b ∈ l, b < 256) :
    ∀ b ∈ decodeBytes l, b < 256 := by
  induction l using decodeBytes.induct with
  | case1 =>
    intro b hb
    simp [decodeBytes] at hb
  | case2 rest ih =>
    intro b hb
    rw [show decodeBytes (43 :: rest) = 32 :: decodeBytes rest from rfl] at hb
    rcases List.mem_cons.1 hb with rfl | hb
    · omega
    · exact ih (fun c hc => hl c (List.mem_cons_of_mem _ hc)) b hb
  | case3 h1 h2 rest2 hcond ih =>
    intro b hb
    rw [show decodeBytes (37 :: h1 :: h2 :: rest2) =
        (hexVal h1 * 16 + hexVal h2) :: decodeBytes rest2 from by
      simp [decodeBytes, hcond]] at hb
    rcases List.mem_cons.1 hb with rfl | hb
    · rw [Bool.and_eq_true] at hcond
      have hx1 : hexVal h1 < 16 := hexVal_lt hcond.1
      have hx2 : hexVal h2 < 16 := hexVal_lt hcond.2
      omega
    · exact ih (fun c hc => hl c
        (List.mem_cons_of_mem _ (List.mem_cons_of_mem _ (List.mem_cons_of_mem _ hc)))) b hb
  | case4 h1 h2 rest2 hcond ih =>
    intro b hb
    rw [show decodeBytes (37 :: h1 :: h2 :: rest2) =
        37 :: decodeBytes (h1 :: h2 :: rest2) from by
      simp [decodeBytes, hcond]] at hb
    rcases List.mem_cons.1 hb with rfl | hb
    · omega
    · exact ih (fun c hc => hl c (List.mem_cons_of_mem _ hc)) b hb
  | case5 b2 rest h43 h37 ih =>
    intro b hb
    have heq : decodeBytes (b2 :: rest) = b2 :: decodeBytes rest := by
      by_cases hb37 : b2 = 37
      · subst hb37
        cases rest with
        | nil => rfl
        | cons x tail =>
          cases tail with
          | nil => rfl
          | cons y tail2 => exact (h37 x y tail2 rfl rfl).elim
      · exact decodeBytes_cons_plain (fun hc => h43 hc) hb37 rest
    rw [heq] at hb
    rcases List.mem_cons.1 hb with rfl | hb
    · exact hl b (List.mem_cons_self _ _)
    · exact ih (fun c hc => hl c (List.mem_cons_of_mem _ hc)) b hb

theorem splitEq_fst_subset : ∀ (s : List Nat), ∀ b ∈ (splitEq s).1, b ∈ s := by
  intro s
  induction s with
  | nil => intro b hb; simp [splitEq] at hb
  | cons c rest ih =>
    intro b hb
    by_cases hc : c = 61
    · simp [splitEq, hc] at hb
    · rw [show splitEq (c :: rest) = (c :: (splitEq rest).1, (splitEq rest).2) from by
        simp [splitEq, hc]] at hb
      rcases List.mem_cons.1 hb with rfl | hb
      · exact List.mem_cons_self _ _
      · exact List.mem_cons_of_mem _ (ih b hb)

theorem splitEq_snd_subset : ∀ (s : List Nat), ∀ b ∈ (splitEq s).2, b ∈ s := by
  intro s
  induction s with
  | nil => intro b hb; simp [splitEq] at hb
  | cons c rest ih =>
    intro b hb
    by_cases hc : c = 61
    · rw [show splitEq (c :: rest) = ([], rest) from by simp [splitEq, hc]] at hb
      exact List.mem_cons_of_mem _ hb
    · rw [show splitEq (c :: rest) = (c :: (splitEq rest).1, (splitEq rest).2) from by
        simp [splitEq, hc]] at hb
      exact List.mem_cons_of_mem _ (ih b hb)

theorem mem_splitOnAmp_subset (s : List Nat) :
    ∀ p ∈ splitOnAmp s, ∀ b ∈ p, b ∈ s := by
  induction s with
  | nil =>
    intro p hp b hb
    simp [splitOnAmp] at hp
    subst hp
    simp at hb
  | cons c rest ih =>
    intro p hp b hb
    by_cases hc : c = 38
    · simp only [splitOnAmp, if_pos hc] at hp
      rcases List.mem_cons.1 hp with rfl | hp
      · simp at hb
      · exact List.mem_cons_of_mem _ (ih p hp b hb)
    · simp only [splitOnAmp, if_neg hc] at hp
      cases hsp : splitOnAmp rest with
      | nil => exact absurd hsp (splitOnAmp_ne_nil rest)
      | cons q qs =>
        rw [hsp] at hp
        rcases List.mem_cons.1 hp with rfl | hp
        · rcases List.mem_cons.1 hb with rfl | hb
          · exact List.mem_cons_self _ _
          · have hq : q ∈ splitOnAmp rest := hsp ▸ List.mem_cons_self _ _
            exact List.mem_cons_of_mem _ (ih q hq b hb)
        · have hpq : p ∈ splitOnAmp rest := hsp ▸ List.mem_cons_of_mem _ hp
          exact List.mem_cons_of_mem _ (ih p hpq b hb)

theorem parseQuery_bound {qs : List Nat} (h : ∀ b ∈ qs, b < 256) :
    ∀ pr ∈ parseQuery qs, (∀ b ∈ pr.1, b < 256) ∧ (∀ b ∈ pr.2, b < 256) := by
  intro pr hpr
  unfold parseQuery at hpr
  rcases List.mem_map.1 hpr with ⟨p, hpf, rfl⟩
  have hpmem : p ∈ splitOnAmp qs := List.mem_of_mem_filter hpf
  have hpb : ∀ b ∈ p, b < 256 :=
    fun b hb => h b (mem_splitOnAmp_subset qs p hpmem b hb)
  exact ⟨decodeBytes_bound _ (fun b hb => hpb b (splitEq_fst_subset p b hb)),
    decodeBytes_bound _ (fun b hb => hpb b (splitEq_snd_subset p b hb))⟩

theorem takeUntil_fst_subset (ds s : List Nat) : ∀ b ∈ (takeUntil ds s).1, b ∈ s := by
  intro b hb
  rw [← takeUntil_append_eq ds s]
  exact List.mem_append.2 (Or.inl hb)

theorem takeUntil_snd_subset (ds s : List Nat) : ∀ b ∈ (takeUntil ds s).2, b ∈ s := by
  intro b hb
  rw [← takeUntil_append_eq ds s]
  exact List.mem_append.2 (Or.inr hb)

theorem dropStart_subset {p s r : List Nat} (h : dropStart p s = some r) :
    ∀ b ∈ r, b ∈ s := by
  intro b hb
  rw [dropStart_eq_append h]
  exact List.mem_append.2 (Or.inr hb)

theorem takeUntil_cons_hit {ds : List Nat} {hd : Nat} (h : hd ∈ ds) (tl : List Nat) :
    takeUntil ds (hd :: tl) = ([], hd :: tl) := by
  simp [takeUntil, h]

theorem takeUntil_cons_miss {ds : List Nat} {hd : Nat} (h : hd ∉ ds) (tl : List Nat) :
    takeUntil ds (hd :: tl) = (hd :: (takeUntil ds tl).1, (takeUntil ds tl).2) := by
  simp [takeUntil, h]

theorem parsePQF_good (s : List Nat)
    (hs : s = [] ∨ ∃ hd tl, s = hd :: tl ∧ hd ∈ ([47, 63, 35] : List Nat)) :
    (∃ p, (parsePQF s).1 = 47 :: p) ∧ (∀ b ∈ (parsePQF s).1, b ≠ 63 ∧ b ≠ 35) := by
  have hfst : (parsePQF s).1 =
      if (takeUntil [63, 35] s).1 = [] then [47] else (takeUntil [63, 35] s).1 := by
    unfold parsePQF
    dsimp only
    cases htk : (takeUntil [63, 35] s).2 with
    | nil => rfl
    | cons d rest =>
      dsimp only
      by_cases hd : d = 63
      · rw [if_pos hd]
        cases htq : (takeUntil [35] rest).2 with
        | nil => rfl
        | cons e f => rfl
      · rw [if_neg hd]
  rw [hfst]
  by_cases hempty : (takeUntil [63, 35] s).1 = []
  · rw [if_pos hempty]
    refine ⟨⟨[], rfl⟩, ?_⟩
    intro b hb
    simp only [List.mem_cons, List.not_mem_nil, or_false] at hb
    subst hb
    omega
  · rw [if_neg hempty]
    constructor
    · rcases hs with rfl | ⟨hd, tl, rfl, hhd⟩
      · exact absurd rfl hempty
      · simp only [List.mem_cons, List.not_mem_nil, or_false] at hhd
        rcases hhd with rfl | rfl | rfl
        · rw [takeUntil_cons_miss (by decide) tl]
          exact ⟨(takeUntil [63, 35] tl).1, rfl⟩
        · rw [takeUntil_cons_hit (by decide) tl] at hempty
          exact absurd rfl hempty
        · rw [takeUntil_cons_hit (by decide) tl] at hempty
          exact absurd rfl hempty
    · intro b hb
      have := takeUntil_fst_no_delim [63, 35] s b hb
      simp only [List.mem_cons, List.not_mem_nil, or_false] at this
      exact ⟨fun hc => this (Or.inl hc), fun hc => this (Or.inr hc)⟩

theorem parsePQF_query_bound (s : List Nat) (hs : ∀ b ∈ s, b < 256) :
    ∀ pr ∈ (parsePQF s).2.1, (∀ b ∈ pr.1, b < 256) ∧ (∀ b ∈ pr.2, b < 256) := by
  unfold parsePQF
  dsimp only
  cases htk : (takeUntil [63, 35] s).2 with
  | nil =>
    intro pr hpr
    simp at hpr
  | cons d rest =>
    dsimp only
    by_cases hd : d = 63
    · rw [if_pos hd]
      have hrest : ∀ b ∈ rest, b < 256 := by
        intro b hb
        exact hs b (takeUntil_snd_subset [63, 35] s b
          (htk ▸ List.mem_cons_of_mem _ hb))
      have hqb : ∀ b ∈ (takeUntil [35] rest).1, b < 256 :=
        fun b hb => hrest b (takeUntil_fst_subset [35] rest b hb)
      cases htq : (takeUntil [35] rest).2 with
      | nil =>
        intro pr hpr
        exact parseQuery_bound hqb pr hpr
      | cons e f =>
        intro pr hpr
        exact parseQuery_bound hqb pr hpr
    · rw [if_neg hd]
      intro pr hpr
      simp at hpr

theorem parseAbs_good {scheme rest : List Nat} {u : UrlModel}
    (hs : scheme = httpsB ∨ scheme = httpB)
    (h : parseAbs scheme rest = some u) : goodUrl u := by
  unfold parseAbs at h
  by_cases ha : (takeUntil [47, 63, 35] rest).1 = []
  · rw [if_pos ha] at h
    exact absurd h (by simp)
  · rw [if_neg ha] at h
    have h2 := Option.some.inj h
    subst h2
    refine ⟨hs, ha, ?_, ?_, ?_⟩
    · intro b hb
      have := takeUntil_fst_no_delim [47, 63, 35] rest b hb
      simp only [List.mem_cons, List.not_mem_nil, or_false] at this
      exact ⟨fun hc => this (Or.inl hc), fun hc => this (Or.inr (Or.inl hc)),
        fun hc => this (Or.inr (Or.inr hc))⟩
    · exact (parsePQF_good _ (takeUntil_snd_shape _ rest)).1
    · exact (parsePQF_good _ (takeUntil_snd_shape _ rest)).2

theorem parseAbs_query_bound {scheme rest : List Nat} {u : UrlModel}
    (h : parseAbs scheme rest = some u) (hrest : ∀ b ∈ rest, b < 256) :
    ∀ pr ∈ u.query, (∀ b ∈ pr.1, b < 256) ∧ (∀ b ∈ pr.2, b < 256) := by
  unfold parseAbs at h
  by_cases ha : (takeUntil [47, 63, 35] rest).1 = []
  · rw [if_pos ha] at h
    exact absurd h (by simp)
  · rw [if_neg ha] at h
    have h2 := Option.some.inj h
    subst h2
    exact parsePQF_query_bound _
      (fun b hb => hrest b (takeUntil_snd_subset [47, 63, 35] rest b hb))

theorem parse_good {s : List Nat} {u : UrlModel} (h : parseUrl s = some u) :
    goodUrl u := by
  unfold parseUrl at h
  cases hd1 : dropStart httpsMark s with
  | some rest =>
    rw [hd1] at h
    exact parseAbs_good (Or.inl rfl) h
  | none =>
    rw [hd1] at h
    cases hd2 : dropStart httpMark s with
    | some rest =>
      rw [hd2] at h
      exact parseAbs_good (Or.inr rfl) h
    | none =>
      rw [hd2] at h
      cases s with
      | nil => exact absurd h (by simp)
      | cons b tl =>
        dsimp only at h
        by_cases hb : b = 47
        · rw [if_pos hb] at h
          have h2 := Option.some.inj h
          subst h2
          subst hb
          refine ⟨Or.inl rfl, ?_, ?_, ?_, ?_⟩
          · show amazonHost ≠ []
            decide
          · show ∀ b ∈ amazonHost, b ≠ 47 ∧ b ≠ 63 ∧ b ≠ 35
            decide
          · exact (parsePQF_good _ (Or.inr ⟨47, tl, rfl, by decide⟩)).1
          · exact (parsePQF_good _ (Or.inr ⟨47, tl, rfl, by decide⟩)).2
        · rw [if_neg hb] at h
          exact absurd h (by simp)

theorem parse_query_bound {s : List Nat} {u : UrlModel} (h : parseUrl s = some u)
    (hs : ∀ b ∈ s, b < 256) :
    ∀ pr ∈ u.query, (∀ b ∈ pr.1, b < 256) ∧ (∀ b ∈ pr.2, b < 256) := by
  unfold parseUrl at h
  cases hd1 : dropStart httpsMark s with
  | some rest =>
    rw [hd1] at h
    exact parseAbs_query_bound h (fun b hb => hs b (dropStart_subset hd1 b hb))
  | none =>
    rw [hd1] at h
    cases hd2 : dropStart httpMark s with
    | some rest =>
      rw [hd2] at h
      exact parseAbs_query_bound h (fun b hb => hs b (dropStart_subset hd2 b hb))
    | none =>
      rw [hd2] at h
      cases s with
      | nil => exact absurd h (by simp)
      | cons b tl =>
        dsimp only at h
        by_cases hb : b = 47
        · rw [if_pos hb] at h
          have h2 := Option.some.inj h
          subst h2
          exact parsePQF_query_bound _ hs
        · rw [if_neg hb] at h
          exact absurd h (by simp)

theorem deleteParam_idem (n : List Nat) (ps : List (List Nat × List Nat)) :
    deleteParam n (deleteParam n ps) = deleteParam n ps := by
  induction ps with
  | nil => rfl
  | cons p ps ih =>
    by_cases h : p.1 = n
    · rw [deleteParam_cons_hit h]; exact ih
    · rw [deleteParam_cons_miss h, deleteParam_cons_miss h, ih]

theorem setParam_setParam (n v : List Nat) (ps : List (List Nat × List Nat)) :
    setParam n v (setParam n v ps) = setParam n v ps := by
  induction ps with
  | nil => simp [setParam, deleteParam]
  | cons p ps ih =>
    by_cases h : p.1 = n
    · have hR : setParam n v (p :: ps) = (n, v) :: deleteParam n ps := by
        rw [setParam, if_pos h]
      have hL : setParam n v ((n, v) :: deleteParam n ps) =
          (n, v) :: deleteParam n (deleteParam n ps) := by
        rw [setParam, if_pos rfl]
      rw [hR, hL, deleteParam_idem]
    · have hR : setParam n v (p :: ps) = p :: setParam n v ps := by
        rw [setParam, if_neg h]
      rw [hR, setParam, if_neg h, ih]

theorem filter_eq_nil_deleteParam {n : List Nat} {ps : List (List Nat × List Nat)}
    (h : ps.filter (fun p => p.1 = n) = []) :
    deleteParam n ps = ps := by
  induction ps with
  | nil => rfl
  | cons p ps ih =>
    by_cases hp : p.1 = n
    · rw [filter_cons_hit hp] at h
      exact absurd h (by simp)
    · rw [filter_cons_miss hp] at h
      rw [deleteParam_cons_miss hp, ih h]

theorem mem_setParam {pr : List Nat × List Nat} {n v : List Nat}
    {ps : List (List Nat × List Nat)} (h : pr ∈ setParam n v ps) :
    pr = (n, v) ∨ pr ∈ ps := by
  induction ps with
  | nil =>
    rw [setParam] at h
    rcases List.mem_cons.1 h with rfl | h
    · exact Or.inl rfl
    · simp at h
  | cons p ps ih =>
    by_cases hp : p.1 = n
    · rw [setParam, if_pos hp] at h
      rcases List.mem_cons.1 h with rfl | h
      · exact Or.inl rfl
      · exact Or.inr (List.mem_cons_of_mem _ (List.mem_of_mem_filter h))
    · rw [setParam, if_neg hp] at h
      rcases List.mem_cons.1 h with rfl | h
      · exact Or.inr (List.mem_cons_self _ _)
      · rcases ih h with h | h
        · exact Or.inl h
        · exact Or.inr (List.mem_cons_of_mem _ h)

theorem setParam_ne_nil (n v : List Nat) (ps : List (List Nat × List Nat)) :
    setParam n v ps ≠ [] := by
  cases ps with
  | nil => simp [setParam]
  | cons p ps => by_cases hp : p.1 = n <;> simp [setParam, hp]

theorem normalizeQuery_idem (q : List (List Nat × List Nat)) :
    normalizeQuery (normalizeQuery q) = normalizeQuery q := by
  have h1 : deleteParam pscB (normalizeQuery q) = normalizeQuery q := by
    apply filter_eq_nil_deleteParam
    rw [normalizeQuery, filter_setParam_other (by decide),
      filter_deleteParam_other (by decide), filter_deleteParam_self]
  have h2 : deleteParam refB (normalizeQuery q) = normalizeQuery q := by
    apply filter_eq_nil_deleteParam
    rw [normalizeQuery, filter_setParam_other (by decide), filter_deleteParam_self]
  show setParam thB oneB (deleteParam refB (deleteParam pscB (normalizeQuery q))) =
    normalizeQuery q
  rw [h1, h2]
  show setParam thB oneB (setParam thB oneB (deleteParam refB (deleteParam pscB q))) = _
  rw [setParam_setParam]
  rfl

theorem normalizeQuery_bound {q : List (List Nat × List Nat)}
    (h : ∀ pr ∈ q, (∀ b ∈ pr.1, b < 256) ∧ (∀ b ∈ pr.2, b < 256)) :
    ∀ pr ∈ normalizeQuery q, (∀ b ∈ pr.1, b < 256) ∧ (∀ b ∈ pr.2, b < 256) := by
  intro pr hpr
  rcases mem_setParam hpr with rfl | hpr
  · exact ⟨(by decide : ∀ b ∈ thB, b < 256), (by decide : ∀ b ∈ oneB, b < 256)⟩
  · exact h pr (List.mem_of_mem_filter (List.mem_of_mem_filter hpr))

/-- C4: the URL Normalizer is idempotent — whenever it resolves a
hyperlink (a byte string) and produces a normalized URL string, running
it again on that output succeeds and returns exactly the same string. -/
theorem normalizeHref_idem (s t : List Nat) (hs : ∀ b ∈ s, b < 256)
    (h : normalizeHref s = some t) : normalizeHref t = some t := by
  unfold normalizeHref at h
  cases hp : parseUrl s with
  | none =>
    rw [hp] at h
    exact absurd h (by simp)
  | some u =>
    rw [hp] at h
    have ht : serializeUrl (normalizeUrl u) = t := Option.some.inj h
    have hg : goodUrl u := parse_good hp
    have hb := parse_query_bound hp hs
    have hgv : goodUrl (normalizeUrl u) := by
      obtain ⟨h1, h2, h3, h4, h5⟩ := hg
      exact ⟨h1, h2, h3, h4, h5⟩
    have hqv : (normalizeUrl u).query ≠ [] := setParam_ne_nil _ _ _
    have hbv : ∀ pr ∈ (normalizeUrl u).query,
        (∀ b ∈ pr.1, b < 256) ∧ (∀ b ∈ pr.2, b < 256) := normalizeQuery_bound hb
    have hparse : parseUrl t = some (normalizeUrl u) := by
      rw [← ht]
      exact parse_serialize (normalizeUrl u) hgv hqv hbv
    have hnn : normalizeUrl (normalizeUrl u) = normalizeUrl u := by
      show ({ u with query := normalizeQuery (normalizeQuery u.query) } : UrlModel) =
        { u with query := normalizeQuery u.query }
      rw [normalizeQuery_idem]
    unfold normalizeHref
    rw [hparse]
    simp only [Option.map_some']
    rw [hnn, ht]

/-- Witness for C4: normalizing the spec's example href once and then
normalizing the output again is a fixed point. -/
theorem normalizeHref_idem_witness :
    normalizeHref (bytesOf "https://www.amazon.com/dp/B000X?th=1") =
      some (bytesOf "https://www.amazon.com/dp/B000X?th=1") :=
  normalizeHref_idem (bytesOf "/dp/B000X?psc=1&ref_=abc")
    (bytesOf "https://www.amazon.com/dp/B000X?th=1") (by decide) (by decide)

end FuckAmazon
